import Mathlib

/-!
# Verification of the tribf Brainfuck-to-C transpiler core

This file is a shallow embedding of `src/main.rs`: the instruction data
model, the character filter, the clear-cell textual rewrite, the
tokenizer/clumper, the token pruning step, the single-pass peephole
optimizer, the per-token C emitter, and a model of `main`'s effect order
(output-file creation before cell-width validation).  A small big-step
interpreter with fuel gives the C-level tape semantics of the instruction
forms, so that the idiom rewrites can be proved semantics-preserving.

Machine integers of the Rust source (`i32` payloads) are modelled as `Int`;
tape cells of the emitted C program (`intN_t`) are modelled as integers
reduced modulo `2 ^ w`.
-/

/-- The instruction type, mirroring `enum Token` of `main.rs` (line 7). -/
inductive Token where
  | Add : Int → Token
  | AddOffset : Int → Int → Token
  | Zero : Token
  | ZeroOffset : Int → Token
  | Move : Int → Token
  | In : Token
  | Out : Token
  | BeginLoop : Token
  | EndLoop : Token
  | Null : Token
  | Mult : Int → Int → Token
deriving DecidableEq, Repr

/-- The optimization flag set, mirroring `struct Optimisations` (line 11). -/
structure Optimisations where
  zero_loop : Bool
  clump_ops : Bool
  move_loop : Bool
  copy_loop : Bool
  mult_loop : Bool
  add_offset : Bool
  zero_offset : Bool
deriving DecidableEq, Repr

/-- Flags enabled at a given `--optimize` level, mirroring the three `if
optilevel >= k` blocks of `main.rs` lines 57-79. -/
def optimisationsFor (lv : Nat) : Optimisations :=
  let o : Optimisations := ⟨false, false, false, false, false, false, false⟩
  let o := if 1 ≤ lv then { o with zero_loop := true, clump_ops := true } else o
  let o := if 2 ≤ lv then { o with move_loop := true, copy_loop := true, mult_loop := true } else o
  if 3 ≤ lv then { o with add_offset := true, zero_offset := true } else o

/-- Recognized characters, mirroring the filter closure of `main.rs`
lines 82-85. -/
def isBF (c : Char) : Bool :=
  match c with
  | '+' | '-' | '<' | '>' | '[' | ']' | ',' | '.' => true
  | _ => false

/-- The character filter (`main.rs` lines 82-85). -/
def bfFilter (cs : List Char) : List Char := cs.filter isBF

/-- The character filter on strings, as `chars().filter().collect()` does. -/
def bfFilterStr (s : String) : String := String.mk (bfFilter s.toList)

/-- Left-to-right non-overlapping replacement of a three-character pattern
by a single character, the `str::replace` instances of `main.rs` line 89. -/
def replace3 (a b c r : Char) : List Char → List Char
  | [] => []
  | [x] => [x]
  | [x, y] => [x, y]
  | x :: y :: z :: rest =>
    if x = a ∧ y = b ∧ z = c then r :: replace3 a b c r rest
    else x :: replace3 a b c r (y :: z :: rest)

/-- The `[-]`/`[+]` clear-cell textual rewrite (`main.rs` lines 88-90):
first all `[-]`, then all `[+]`, each replaced by the sentinel `'0'`. -/
def zeroRewrite (enabled : Bool) (cs : List Char) : List Char :=
  if enabled then replace3 '[' '+' ']' '0' (replace3 '[' '-' ']' '0' cs) else cs

/-- One tokenizer step: the `match (c, current)` of `main.rs` lines 97-116,
threading the output list and the pending instruction. -/
def tokStep (clump : Bool) (st : List Token × Token) (c : Char) : List Token × Token :=
  match c, st.2 with
  | '+', Token.Add x => if clump then (st.1, Token.Add (x + 1)) else (st.1 ++ [Token.Add x], Token.Add 1)
  | '-', Token.Add x => if clump then (st.1, Token.Add (x - 1)) else (st.1 ++ [Token.Add x], Token.Add (-1))
  | '0', Token.Add x => if clump then (st.1, Token.Zero) else (st.1 ++ [Token.Add x], Token.Zero)
  | '0', Token.Zero => if clump then (st.1, Token.Zero) else (st.1 ++ [Token.Zero], Token.Zero)
  | '>', Token.Move x => if clump then (st.1, Token.Move (x + 1)) else (st.1 ++ [Token.Move x], Token.Move 1)
  | '<', Token.Move x => if clump then (st.1, Token.Move (x - 1)) else (st.1 ++ [Token.Move x], Token.Move (-1))
  | '+', cur => (st.1 ++ [cur], Token.Add 1)
  | '-', cur => (st.1 ++ [cur], Token.Add (-1))
  | '0', cur => (st.1 ++ [cur], Token.Zero)
  | '>', cur => (st.1 ++ [cur], Token.Move 1)
  | '<', cur => (st.1 ++ [cur], Token.Move (-1))
  | '.', cur => (st.1 ++ [cur], Token.Out)
  | ',', cur => (st.1 ++ [cur], Token.In)
  | '[', cur => (st.1 ++ [cur], Token.BeginLoop)
  | ']', cur => (st.1 ++ [cur], Token.EndLoop)
  | _, _ => st

/-- The tokenizer/clumper loop of `main.rs` lines 93-118, including the
final push of the pending instruction. -/
def tokenize (clump : Bool) (cs : List Char) : List Token :=
  let st := cs.foldl (tokStep clump) ([], Token.Null)
  st.1 ++ [st.2]

/-- Removal of `Null`, `Add(0)` and `Move(0)` tokens after tokenization
(`main.rs` lines 120-123). -/
def prune (ts : List Token) : List Token :=
  ts.filter fun t =>
    match t with
    | Token.Null => false
    | Token.Add x => x != 0
    | Token.Move x => x != 0
    | _ => true

/-- The 8-instruction lookahead window at the current scan position: the
sequence is right-padded with `Null` (`main.rs` lines 130-132) so the
window `tokens[i..(i+8)]` is always fully populated. -/
def window (ts : List Token) : List Token :=
  (ts ++ List.replicate 8 Token.Null).take 8

/-- The idiom match of the peephole pass: the `match &tokens[i..(i+8)]` of
`main.rs` lines 134-192, returning the replacement instructions and the
in-arm scan increment (`i += 5 / 7 / 2`); the caller adds the loop's
common `i += 1`.  Rust's literal `Add(-1)` patterns become guard
conjuncts; all six slice patterns are pairwise constructor-disjoint, so a
failed guard falls through to "no match" exactly as in the source. -/
def peepMatch (o : Optimisations) (w : List Token) : Option (List Token × Nat) :=
  match w with
  | [Token.BeginLoop, Token.Add b, Token.Move m1, Token.Add a1, Token.Move m2,
     Token.EndLoop, _, _] =>
    if b = -1 ∧ m1 = -m2 ∧ o.move_loop = true then
      some ([Token.Mult m1 a1, Token.Zero], 5)
    else none
  | [Token.BeginLoop, Token.Move m1, Token.Add a1, Token.Move m2, Token.Add b,
     Token.EndLoop, _, _] =>
    if b = -1 ∧ m1 = -m2 ∧ o.move_loop = true then
      some ([Token.Mult m1 a1, Token.Zero], 5)
    else none
  | [Token.BeginLoop, Token.Add b, Token.Move m1, Token.Add a1, Token.Move m2,
     Token.Add a2, Token.Move m3, Token.EndLoop] =>
    if b = -1 ∧ -m3 = m1 + m2 ∧ o.copy_loop = true ∧ ((a1 = 1 ∧ a2 = 1) ∨ o.mult_loop = true) then
      some ([Token.Mult m1 a1, Token.Mult (m1 + m2) a2, Token.Zero], 7)
    else none
  | [Token.BeginLoop, Token.Move m1, Token.Add a1, Token.Move m2, Token.Add a2,
     Token.Move m3, Token.Add b, Token.EndLoop] =>
    if b = -1 ∧ -m3 = m1 + m2 ∧ o.copy_loop = true ∧ ((a1 = 1 ∧ a2 = 1) ∨ o.mult_loop = true) then
      some ([Token.Mult m1 a1, Token.Mult (m1 + m2) a2, Token.Zero], 7)
    else none
  | [Token.Move m1, Token.Add a, Token.Move m2, _, _, _, _, _] =>
    if ((m1 > 0 ∧ m2 < 0) ∨ (m1 < 0 ∧ m2 > 0)) ∧ o.add_offset = true then
      some (if m1 = -m2 then [Token.AddOffset a m1]
            else [Token.AddOffset a m1, Token.Move (m1 + m2)], 2)
    else none
  | [Token.Move m1, Token.Zero, Token.Move m2, _, _, _, _, _] =>
    if ((m1 > 0 ∧ m2 < 0) ∨ (m1 < 0 ∧ m2 > 0)) ∧ o.zero_offset = true then
      some (if m1 = -m2 then [Token.ZeroOffset m1]
            else [Token.ZeroOffset m1, Token.Move (m1 + m2)], 2)
    else none
  | _ => none

/-- The scan loop of the peephole pass (`main.rs` lines 133-195), written
on the suffix of the (conceptually padded) token sequence: on a match the
scan skips the in-arm increment plus the common `i += 1`; otherwise the
current token is copied and the scan advances by one.  The fuel argument
makes the recursion structural; `fuel = length` always suffices. -/
def peepGo (o : Optimisations) : Nat → List Token → List Token
  | _, [] => []
  | 0, ts => ts
  | f + 1, t :: rest =>
    match peepMatch o (window (t :: rest)) with
    | some (repl, k) => repl ++ peepGo o f (rest.drop k)
    | none => t :: peepGo o f rest

/-- The peephole optimizer: one left-to-right pass over the whole
sequence. -/
def peepOpt (o : Optimisations) (ts : List Token) : List Token :=
  peepGo o ts.length ts

/-- The full middle pipeline on the raw input text: filter, optional
clear-cell rewrite, tokenize/clump, prune, peephole pass
(`main.rs` lines 82-195). -/
def pipelineO (o : Optimisations) (s : String) : List Token :=
  let code0 := bfFilter s.toList
  let code1 := zeroRewrite o.zero_loop code0
  peepOpt o (prune (tokenize o.clump_ops code1))

/-- The pipeline at a given `--optimize` level. -/
def pipeline (lv : Nat) (s : String) : List Token :=
  pipelineO (optimisationsFor lv) s

/-- The per-token emitter (`main.rs` lines 204-217): one line of C text per
instruction; `none` models the catch-all `panic!()` branch (reached only
by `Null`). -/
def emitLine (inputcode : String) : Token → Option String
  | Token.Add x => some ("*ptr+=" ++ toString x ++ ";\n")
  | Token.AddOffset x o => some ("*(ptr+" ++ toString o ++ ")+=" ++ toString x ++ ";\n")
  | Token.Move x => some ("ptr+=" ++ toString x ++ ";\n")
  | Token.Zero => some ("*ptr=0;\n")
  | Token.ZeroOffset x => some ("*(ptr+" ++ toString x ++ ")=0;\n")
  | Token.Mult x y => some ("*(ptr+" ++ toString x ++ ")+=*ptr*" ++ toString y ++ ";\n")
  | Token.BeginLoop => some ("while(*ptr)\x7b\n")
  | Token.EndLoop => some ("\x7d\n")
  | Token.Out => some ("putchar(*ptr);\n")
  | Token.In => some inputcode
  | Token.Null => none

/-- All emitted instruction lines of a token sequence. -/
def emitLines (inputcode : String) (ts : List Token) : List String :=
  ts.filterMap (emitLine inputcode)

/-- The cell datatype selection of `main.rs` lines 32-36: `none` models the
`panic!` on an invalid `--bits` value. -/
def datatypeOf (bits : String) : Option String :=
  if bits = "8" ∨ bits = "16" ∨ bits = "32" ∨ bits = "64" then
    some ("int" ++ bits ++ "_t")
  else none

/-- The `In`-instruction C text per end-of-input flags (`main.rs` lines
39-49); `none` models the `panic!` on conflicting flags. -/
def inputcodeOf (dt : String) (z n u : Bool) : Option String :=
  match z, n, u with
  | false, false, false => some ("*ptr=getchar();")
  | true, false, false => some ("inbuf=getchar();*ptr=(inbuf==(" ++ dt ++ ")(EOF))?0:inbuf;")
  | false, true, false => some ("inbuf=getchar();*ptr=(inbuf==(" ++ dt ++ ")(EOF))?-1:inbuf;")
  | false, false, true => some ("inbuf=getchar();*ptr=(inbuf==(" ++ dt ++ ")(EOF))?*ptr:inbuf;")
  | _, _, _ => none

/-- The fixed output preamble (`main.rs` lines 198-201). -/
def headerOf (dt len : String) : List String :=
  ["#include <stdio.h>\n#include <inttypes.h>\n",
   dt ++ " mem[" ++ len ++ "]; " ++ dt ++ " *ptr = mem;\n" ++ dt ++ " inbuf;\n",
   "int main() \x7b"]

/-- The command-line configuration reaching `main` (parsing itself is
external). -/
structure Args where
  bits : String
  eofZero : Bool
  eofNegOne : Bool
  eofUnchanged : Bool
  tapeLength : String
  optiLevel : Nat
deriving Repr

/-- Observable outcome of one run of `main`: whether `File::create` ran on
the output path, the text written to it, and the panic message if the run
aborted. -/
structure RunResult where
  outputCreated : Bool
  written : List String
  panicMsg : Option String
deriving Repr

/-- The effect order of `main` (`main.rs` lines 21-220): the output file is
created (line 29) before the `--bits` validation (lines 32-36), so an
invalid cell width panics with the output path already created and
truncated, and nothing written to it. -/
def mainModel (a : Args) (inputContents : String) : RunResult :=
  match datatypeOf a.bits with
  | none => ⟨true, [], some ("Error: bit count must be 8, 16, 32, or 64")⟩
  | some dt =>
    match inputcodeOf dt a.eofZero a.eofNegOne a.eofUnchanged with
    | none => ⟨true, [], some ("explicit panic")⟩
    | some ic =>
      let toks := pipelineO (optimisationsFor a.optiLevel) inputContents
      ⟨true, headerOf dt a.tapeLength ++ emitLines ic toks ++ ["return 0;\n\x7d\n"], none⟩

/-!
## Target tape semantics

Big-step interpreter with fuel for flat token sequences, giving the C
semantics of each emitted line (§6 of the design): cells are `w`-bit
integers kept reduced modulo `2 ^ w`, the tape is a total function so that
any tape size large enough for the touched offsets behaves identically,
and `BeginLoop`/`EndLoop` execute as `while(*ptr){ ... }`.
-/

/-- End-of-input policy of the emitted `In` line. -/
inductive EofPolicy where
  | raw | zero | negOne | unchanged
deriving DecidableEq, Repr

/-- Reduction of a cell value modulo `2 ^ w`. -/
def wrap (w : Nat) (x : Int) : Int := x % ((2 : Int) ^ w)

/-- Pointwise update of the tape. -/
def upd (t : Int → Int) (i x : Int) : Int → Int :=
  fun j => if j = i then x else t j

/-- Well-formed tape: every cell already reduced modulo `2 ^ w`. -/
def wfT (w : Nat) (t : Int → Int) : Prop :=
  ∀ j, 0 ≤ t j ∧ t j < (2 : Int) ^ w

/-- Machine state of the emitted program: tape, pointer, remaining input
bytes, produced output bytes. -/
structure Mach where
  tape : Int → Int
  ptr : Int
  inp : List Int
  outp : List Int

/-- Semantics of the emitted `In` line under each end-of-input policy
(`main.rs` lines 39-49): `inbuf` has the cell type, so a read byte equal
to the truncated EOF value takes the EOF branch. -/
def inStep (w : Nat) (pol : EofPolicy) (s : Mach) : Mach :=
  match pol with
  | EofPolicy.raw =>
    match s.inp with
    | [] => { s with tape := upd s.tape s.ptr (wrap w (-1)) }
    | b :: r => { s with tape := upd s.tape s.ptr (wrap w b), inp := r }
  | _ =>
    let v := match s.inp with | [] => wrap w (-1) | b :: _ => wrap w b
    let r := match s.inp with | [] => ([] : List Int) | _ :: rr => rr
    if v = wrap w (-1) then
      match pol with
      | EofPolicy.zero => { s with tape := upd s.tape s.ptr 0, inp := r }
      | EofPolicy.negOne => { s with tape := upd s.tape s.ptr (wrap w (-1)), inp := r }
      | _ => { s with inp := r }
    else { s with tape := upd s.tape s.ptr v, inp := r }

/-- Semantics of one non-structural token, per the emitter table of
`main.rs` lines 204-217; `none` for tokens with no single-line semantics
(`BeginLoop`, `EndLoop`, `Null`). -/
def stepTok (w : Nat) (pol : EofPolicy) : Token → Mach → Option Mach
  | Token.Add x, s =>
    some { s with tape := upd s.tape s.ptr (wrap w (s.tape s.ptr + x)) }
  | Token.AddOffset x o, s =>
    some { s with tape := upd s.tape (s.ptr + o) (wrap w (s.tape (s.ptr + o) + x)) }
  | Token.Zero, s => some { s with tape := upd s.tape s.ptr 0 }
  | Token.ZeroOffset o, s => some { s with tape := upd s.tape (s.ptr + o) 0 }
  | Token.Move x, s => some { s with ptr := s.ptr + x }
  | Token.Mult o f, s =>
    some { s with tape := upd s.tape (s.ptr + o) (wrap w (s.tape (s.ptr + o) + s.tape s.ptr * f)) }
  | Token.Out, s => some { s with outp := s.outp ++ [s.tape s.ptr] }
  | Token.In, s => some (inStep w pol s)
  | _, _ => none

/-- Split the tokens after a `BeginLoop` into the loop body and the tokens
after the matching `EndLoop`. -/
def splitLoop : List Token → Nat → Option (List Token × List Token)
  | [], _ => none
  | Token.EndLoop :: rest, 0 => some ([], rest)
  | Token.EndLoop :: rest, d + 1 =>
    (splitLoop rest d).map fun p => (Token.EndLoop :: p.1, p.2)
  | Token.BeginLoop :: rest, d =>
    (splitLoop rest (d + 1)).map fun p => (Token.BeginLoop :: p.1, p.2)
  | t :: rest, d =>
    (splitLoop rest d).map fun p => (t :: p.1, p.2)

/-- Fuel-indexed big-step execution of a flat token sequence.  A
`BeginLoop` executes as C's `while`: if the current cell is zero skip to
after the matching `EndLoop`, otherwise run the body once and re-test. -/
def exec (w : Nat) (pol : EofPolicy) : Nat → List Token → Mach → Option Mach
  | _, [], s => some s
  | 0, _ :: _, _ => none
  | f + 1, t :: rest, s =>
    match t with
    | Token.BeginLoop =>
      match splitLoop rest 0 with
      | none => none
      | some (body, after) =>
        if s.tape s.ptr = 0 then exec w pol f after s
        else exec w pol f (body ++ Token.BeginLoop :: rest) s
    | _ =>
      match stepTok w pol t s with
      | none => none
      | some s2 => exec w pol f rest s2

/-- Terminating execution: some fuel suffices. -/
def execTerm (w : Nat) (pol : EofPolicy) (ts : List Token) (s s' : Mach) : Prop :=
  ∃ f, exec w pol f ts s = some s'


/-- Loop-marker tokens. -/
def isBr (t : Token) : Bool :=
  match t with
  | Token.BeginLoop => true
  | Token.EndLoop => true
  | _ => false

/-- The subsequence of loop markers of a token sequence, in order. -/
def brackets (ts : List Token) : List Token := ts.filter isBr

/-- Bracket-balance check with an explicit depth counter. -/
def balAux : List Token → Nat → Bool
  | [], n => n == 0
  | Token.BeginLoop :: r, n => balAux r (n + 1)
  | Token.EndLoop :: _, 0 => false
  | Token.EndLoop :: r, n + 1 => balAux r n
  | _ :: r, n => balAux r n

/-- A token sequence whose loop markers are properly nested and balanced. -/
def balancedTokens (ts : List Token) : Bool := balAux ts 0

/-- `PairDrop xs ys`: `ys` is `xs` with some adjacent
`BeginLoop, EndLoop` pairs deleted. -/
inductive PairDrop : List Token → List Token → Prop where
  | nil : PairDrop [] []
  | keep (t : Token) {xs ys : List Token} : PairDrop xs ys → PairDrop (t :: xs) (t :: ys)
  | drop {xs ys : List Token} : PairDrop xs ys →
      PairDrop (Token.BeginLoop :: Token.EndLoop :: xs) ys

/-! ## Basic lemmas about tape updates and cell reduction -/

lemma upd_same (t : Int → Int) (i x : Int) : upd t i x i = x := by
  simp [upd]

lemma upd_ne (t : Int → Int) (i x j : Int) (h : j ≠ i) : upd t i x j = t j := by
  simp [upd, h]

lemma upd_comm (t : Int → Int) (i x i' y : Int) (h : i ≠ i') :
    upd (upd t i x) i' y = upd (upd t i' y) i x := by
  funext j
  by_cases h1 : j = i' <;> by_cases h2 : j = i
  · exact absurd (h2.symm.trans h1) h
  · simp [upd, h1, h2, Ne.symm h]
  · simp [upd, h1, h2, h]
  · simp [upd, h1, h2]

lemma upd_upd (t : Int → Int) (i x y : Int) : upd (upd t i x) i y = upd t i y := by
  funext j; by_cases h : j = i <;> simp [upd, h]

lemma upd_self (t : Int → Int) (i x : Int) (h : t i = x) : upd t i x = t := by
  funext j; by_cases hj : j = i <;> simp [upd, hj, h.symm]

lemma two_pow_pos (w : Nat) : (0 : Int) < (2 : Int) ^ w := by positivity

lemma wrap_nonneg (w : Nat) (x : Int) : 0 ≤ wrap w x :=
  Int.emod_nonneg x (ne_of_gt (two_pow_pos w))

lemma wrap_lt (w : Nat) (x : Int) : wrap w x < (2 : Int) ^ w :=
  Int.emod_lt_of_pos x (two_pow_pos w)

lemma wrap_eq_self (w : Nat) (x : Int) (h0 : 0 ≤ x) (h1 : x < (2 : Int) ^ w) :
    wrap w x = x :=
  Int.emod_eq_of_lt h0 h1

lemma wrap_wrap_add (w : Nat) (x y : Int) : wrap w (wrap w x + y) = wrap w (x + y) := by
  unfold wrap
  conv_rhs => rw [Int.add_emod]
  rw [Int.add_emod (x % (2 : Int) ^ w) y, Int.emod_emod_of_dvd x dvd_rfl]

lemma wfT_upd (w : Nat) (t : Int → Int) (i x : Int) (ht : wfT w t)
    (h0 : 0 ≤ x) (h1 : x < (2 : Int) ^ w) : wfT w (upd t i x) := by
  intro j
  by_cases hj : j = i
  · subst hj; rw [upd_same]; exact ⟨h0, h1⟩
  · rw [upd_ne t i x j hj]; exact ht j

lemma wfT_upd_wrap (w : Nat) (t : Int → Int) (i x : Int) (ht : wfT w t) :
    wfT w (upd t i (wrap w x)) :=
  wfT_upd w t i (wrap w x) ht (wrap_nonneg w x) (wrap_lt w x)

/-! ## Fuel monotonicity, determinism and sequencing of `exec` -/

lemma exec_mono (w : Nat) (pol : EofPolicy) :
    ∀ f f', f ≤ f' → ∀ ts s s', exec w pol f ts s = some s' →
      exec w pol f' ts s = some s' := by
  intro f
  induction f with
  | zero =>
    intro f' _ ts s s' h
    cases ts with
    | nil => simpa [exec] using h
    | cons t rest => simp [exec] at h
  | succ g ih =>
    intro f' hle ts s s' h
    obtain ⟨g', rfl⟩ : ∃ g', f' = g' + 1 := ⟨f' - 1, by omega⟩
    have hgg : g ≤ g' := by omega
    cases ts with
    | nil => simpa [exec] using h
    | cons t rest =>
      cases t
      case BeginLoop =>
        simp only [exec] at h ⊢
        cases hsp : splitLoop rest 0 with
        | none => rw [hsp] at h; simp at h
        | some p =>
          obtain ⟨body, after⟩ := p
          rw [hsp] at h
          dsimp only at h ⊢
          by_cases hz : s.tape s.ptr = 0
          · rw [if_pos hz] at h ⊢; exact ih g' hgg _ _ _ h
          · rw [if_neg hz] at h ⊢; exact ih g' hgg _ _ _ h
      case EndLoop => simp [exec, stepTok] at h
      case Null => simp [exec, stepTok] at h
      all_goals simp only [exec, stepTok] at h ⊢
      all_goals exact ih g' hgg _ _ _ h

lemma execTerm_det (w : Nat) (pol : EofPolicy) (ts : List Token) (s s1 s2 : Mach)
    (h1 : execTerm w pol ts s s1) (h2 : execTerm w pol ts s s2) : s1 = s2 := by
  obtain ⟨f1, e1⟩ := h1
  obtain ⟨f2, e2⟩ := h2
  have e1' := exec_mono w pol f1 (max f1 f2) (le_max_left _ _) ts s s1 e1
  have e2' := exec_mono w pol f2 (max f1 f2) (le_max_right _ _) ts s s2 e2
  rw [e1'] at e2'
  exact Option.some.inj e2'

lemma splitLoop_append :
    ∀ (rest : List Token) (d : Nat) (b a : List Token),
      splitLoop rest d = some (b, a) →
      ∀ ts2, splitLoop (rest ++ ts2) d = some (b, a ++ ts2) := by
  intro rest
  induction rest with
  | nil => intro d b a h; simp [splitLoop] at h
  | cons t rest ih =>
    intro d b a h ts2
    cases t with
    | EndLoop =>
      cases d with
      | zero =>
        simp only [splitLoop] at h
        obtain ⟨rfl, rfl⟩ := Prod.mk.injEq _ _ _ _ ▸ Option.some.inj h
        simp [splitLoop]
      | succ d' =>
        simp only [splitLoop] at h ⊢
        cases hsp : splitLoop rest d' with
        | none => rw [hsp] at h; simp at h
        | some p =>
          rw [hsp] at h
          obtain ⟨b', a'⟩ := p
          simp only [Option.map] at h
          obtain ⟨hb, ha⟩ := Prod.mk.injEq _ _ _ _ ▸ Option.some.inj h
          rw [show rest.append ts2 = rest ++ ts2 from rfl]
          rw [ih d' b' a' hsp ts2]
          simp [Option.map, ← hb, ← ha]
    | BeginLoop =>
      simp only [splitLoop] at h ⊢
      cases hsp : splitLoop rest (d + 1) with
      | none => rw [hsp] at h; simp at h
      | some p =>
        rw [hsp] at h
        obtain ⟨b', a'⟩ := p
        simp only [Option.map] at h
        obtain ⟨hb, ha⟩ := Prod.mk.injEq _ _ _ _ ▸ Option.some.inj h
        rw [show rest.append ts2 = rest ++ ts2 from rfl]
        rw [ih (d + 1) b' a' hsp ts2]
        simp [Option.map, ← hb, ← ha]
    | Add x =>
      simp only [splitLoop] at h ⊢
      cases hsp : splitLoop rest d with
      | none => rw [hsp] at h; simp at h
      | some p =>
        rw [hsp] at h
        obtain ⟨b', a'⟩ := p
        simp only [Option.map] at h
        obtain ⟨hb, ha⟩ := Prod.mk.injEq _ _ _ _ ▸ Option.some.inj h
        rw [show rest.append ts2 = rest ++ ts2 from rfl]
        rw [ih d b' a' hsp ts2]
        simp [Option.map, ← hb, ← ha]
    | AddOffset x o =>
      simp only [splitLoop] at h ⊢
      cases hsp : splitLoop rest d with
      | none => rw [hsp] at h; simp at h
      | some p =>
        rw [hsp] at h
        obtain ⟨b', a'⟩ := p
        simp only [Option.map] at h
        obtain ⟨hb, ha⟩ := Prod.mk.injEq _ _ _ _ ▸ Option.some.inj h
        rw [show rest.append ts2 = rest ++ ts2 from rfl]
        rw [ih d b' a' hsp ts2]
        simp [Option.map, ← hb, ← ha]
    | Zero =>
      simp only [splitLoop] at h ⊢
      cases hsp : splitLoop rest d with
      | none => rw [hsp] at h; simp at h
      | some p =>
        rw [hsp] at h
        obtain ⟨b', a'⟩ := p
        simp only [Option.map] at h
        obtain ⟨hb, ha⟩ := Prod.mk.injEq _ _ _ _ ▸ Option.some.inj h
        rw [show rest.append ts2 = rest ++ ts2 from rfl]
        rw [ih d b' a' hsp ts2]
        simp [Option.map, ← hb, ← ha]
    | ZeroOffset o =>
      simp only [splitLoop] at h ⊢
      cases hsp : splitLoop rest d with
      | none => rw [hsp] at h; simp at h
      | some p =>
        rw [hsp] at h
        obtain ⟨b', a'⟩ := p
        simp only [Option.map] at h
        obtain ⟨hb, ha⟩ := Prod.mk.injEq _ _ _ _ ▸ Option.some.inj h
        rw [show rest.append ts2 = rest ++ ts2 from rfl]
        rw [ih d b' a' hsp ts2]
        simp [Option.map, ← hb, ← ha]
    | Move x =>
      simp only [splitLoop] at h ⊢
      cases hsp : splitLoop rest d with
      | none => rw [hsp] at h; simp at h
      | some p =>
        rw [hsp] at h
        obtain ⟨b', a'⟩ := p
        simp only [Option.map] at h
        obtain ⟨hb, ha⟩ := Prod.mk.injEq _ _ _ _ ▸ Option.some.inj h
        rw [show rest.append ts2 = rest ++ ts2 from rfl]
        rw [ih d b' a' hsp ts2]
        simp [Option.map, ← hb, ← ha]
    | Mult o fc =>
      simp only [splitLoop] at h ⊢
      cases hsp : splitLoop rest d with
      | none => rw [hsp] at h; simp at h
      | some p =>
        rw [hsp] at h
        obtain ⟨b', a'⟩ := p
        simp only [Option.map] at h
        obtain ⟨hb, ha⟩ := Prod.mk.injEq _ _ _ _ ▸ Option.some.inj h
        rw [show rest.append ts2 = rest ++ ts2 from rfl]
        rw [ih d b' a' hsp ts2]
        simp [Option.map, ← hb, ← ha]
    | In =>
      simp only [splitLoop] at h ⊢
      cases hsp : splitLoop rest d with
      | none => rw [hsp] at h; simp at h
      | some p =>
        rw [hsp] at h
        obtain ⟨b', a'⟩ := p
        simp only [Option.map] at h
        obtain ⟨hb, ha⟩ := Prod.mk.injEq _ _ _ _ ▸ Option.some.inj h
        rw [show rest.append ts2 = rest ++ ts2 from rfl]
        rw [ih d b' a' hsp ts2]
        simp [Option.map, ← hb, ← ha]
    | Out =>
      simp only [splitLoop] at h ⊢
      cases hsp : splitLoop rest d with
      | none => rw [hsp] at h; simp at h
      | some p =>
        rw [hsp] at h
        obtain ⟨b', a'⟩ := p
        simp only [Option.map] at h
        obtain ⟨hb, ha⟩ := Prod.mk.injEq _ _ _ _ ▸ Option.some.inj h
        rw [show rest.append ts2 = rest ++ ts2 from rfl]
        rw [ih d b' a' hsp ts2]
        simp [Option.map, ← hb, ← ha]
    | Null =>
      simp only [splitLoop] at h ⊢
      cases hsp : splitLoop rest d with
      | none => rw [hsp] at h; simp at h
      | some p =>
        rw [hsp] at h
        obtain ⟨b', a'⟩ := p
        simp only [Option.map] at h
        obtain ⟨hb, ha⟩ := Prod.mk.injEq _ _ _ _ ▸ Option.some.inj h
        rw [show rest.append ts2 = rest ++ ts2 from rfl]
        rw [ih d b' a' hsp ts2]
        simp [Option.map, ← hb, ← ha]

lemma exec_append (w : Nat) (pol : EofPolicy) :
    ∀ f ts1 s s1, exec w pol f ts1 s = some s1 →
      ∀ ts2 s2, execTerm w pol ts2 s1 s2 → execTerm w pol (ts1 ++ ts2) s s2 := by
  intro f
  induction f with
  | zero =>
    intro ts1 s s1 h ts2 s2 hterm
    cases ts1 with
    | nil =>
      simp only [exec] at h
      obtain rfl := Option.some.inj h
      simpa using hterm
    | cons t rest => simp [exec] at h
  | succ g ih =>
    intro ts1 s s1 h ts2 s2 hterm
    cases ts1 with
    | nil =>
      simp only [exec] at h
      obtain rfl := Option.some.inj h
      simpa using hterm
    | cons t rest =>
      cases t
      case BeginLoop =>
        simp only [exec] at h
        cases hsp : splitLoop rest 0 with
        | none => rw [hsp] at h; simp at h
        | some p =>
          obtain ⟨body, after⟩ := p
          rw [hsp] at h
          dsimp only at h
          by_cases hz : s.tape s.ptr = 0
          · rw [if_pos hz] at h
            obtain ⟨g2, hg2⟩ := ih after s s1 h ts2 s2 hterm
            refine ⟨g2 + 1, ?_⟩
            simp only [List.cons_append, exec]
            rw [show rest.append ts2 = rest ++ ts2 from rfl]
            rw [splitLoop_append rest 0 body after hsp ts2]
            dsimp only
            rw [if_pos hz]
            exact hg2
          · rw [if_neg hz] at h
            obtain ⟨g2, hg2⟩ := ih (body ++ Token.BeginLoop :: rest) s s1 h ts2 s2 hterm
            refine ⟨g2 + 1, ?_⟩
            simp only [List.cons_append, exec]
            rw [show rest.append ts2 = rest ++ ts2 from rfl]
            rw [splitLoop_append rest 0 body after hsp ts2]
            dsimp only
            rw [if_neg hz]
            have : (body ++ Token.BeginLoop :: rest) ++ ts2
                = body ++ Token.BeginLoop :: (rest ++ ts2) := by
              simp [List.append_assoc]
            rw [this] at hg2
            exact hg2
      case EndLoop => simp [exec, stepTok] at h
      case Null => simp [exec, stepTok] at h
      all_goals
        simp only [exec, stepTok] at h
      all_goals
        obtain ⟨g2, hg2⟩ := ih _ _ _ h ts2 s2 hterm
      all_goals
        exact ⟨g2 + 1, by simp only [List.cons_append, exec, stepTok]; exact hg2⟩

lemma execTerm_append (w : Nat) (pol : EofPolicy) (ts1 ts2 : List Token)
    (s s1 s2 : Mach) (h1 : execTerm w pol ts1 s s1) (h2 : execTerm w pol ts2 s1 s2) :
    execTerm w pol (ts1 ++ ts2) s s2 := by
  obtain ⟨f, hf⟩ := h1
  exact exec_append w pol f ts1 s s1 hf ts2 s2 h2

/-- Generic semantics of a recognized counting loop: if one pass of the
body decrements the current cell by one and otherwise transforms the tape
by `G p` (which neither reads nor writes through the pointer cell), then
the whole `while` loop applies `G p` once per initial cell value and
clears the cell. -/
lemma loopRun (w : Nat) (pol : EofPolicy) (bd : List Token)
    (G : Int → (Int → Int) → (Int → Int))
    (hsplit : splitLoop (bd ++ [Token.EndLoop]) 0 = some (bd, []))
    (hbd : ∀ t p i o, wfT w t →
      execTerm w pol bd ⟨t, p, i, o⟩ ⟨upd (G p t) p (wrap w (t p - 1)), p, i, o⟩)
    (hGupd : ∀ p t x, G p (upd t p x) = upd (G p t) p x)
    (hGwf : ∀ p t, wfT w t → wfT w (G p t)) :
    ∀ v : Nat, ∀ t p i o, wfT w t → t p = (v : Int) →
      execTerm w pol (Token.BeginLoop :: bd ++ [Token.EndLoop]) ⟨t, p, i, o⟩
        ⟨upd ((G p)^[v] t) p 0, p, i, o⟩ := by
  intro v
  induction v with
  | zero =>
    intro t p i o hwf ht
    have h0 : t p = 0 := by exact_mod_cast ht
    have hfin : upd ((G p)^[0] t) p 0 = t := by
      rw [Function.iterate_zero_apply]; exact upd_self t p 0 h0
    refine ⟨1, ?_⟩
    rw [hfin]
    simp only [exec]
    rw [show bd.append [Token.EndLoop] = bd ++ [Token.EndLoop] from rfl]
    rw [hsplit]
    dsimp only
    rw [if_pos h0]
    simp [exec]
  | succ n ihv =>
    intro t p i o hwf ht
    have hnz : t p ≠ 0 := by
      rw [ht]; exact_mod_cast Nat.succ_ne_zero n
    have hstep := hbd t p i o hwf
    have hnlt : (n : Int) < (2 : Int) ^ w := by
      have h2 := (hwf p).2
      rw [ht] at h2
      push_cast at h2
      linarith
    have ht1p : upd (G p t) p (wrap w (t p - 1)) p = (n : Int) := by
      rw [upd_same, ht]
      have hc : ((n + 1 : Nat) : Int) - 1 = (n : Int) := by push_cast; ring
      rw [hc]
      exact wrap_eq_self w _ (by positivity) hnlt
    have hwf1 : wfT w (upd (G p t) p (wrap w (t p - 1))) :=
      wfT_upd_wrap w (G p t) p (t p - 1) (hGwf p t hwf)
    have hloop := ihv (upd (G p t) p (wrap w (t p - 1))) p i o hwf1 ht1p
    have hcomb := execTerm_append w pol bd (Token.BeginLoop :: bd ++ [Token.EndLoop])
      ⟨t, p, i, o⟩ ⟨upd (G p t) p (wrap w (t p - 1)), p, i, o⟩ _ hstep hloop
    have hiter : ∀ m (t' : Int → Int) x, (G p)^[m] (upd t' p x) = upd ((G p)^[m] t') p x := by
      intro m
      induction m with
      | zero => intro t' x; simp
      | succ k ihm =>
        intro t' x
        rw [Function.iterate_succ_apply, hGupd, ihm, Function.iterate_succ_apply]
    have hfin : upd ((G p)^[n] (upd (G p t) p (wrap w (t p - 1)))) p 0
        = upd ((G p)^[n + 1] t) p 0 := by
      rw [hiter n (G p t) _, upd_upd, Function.iterate_succ_apply]
    obtain ⟨g2, hg2⟩ := hcomb
    refine ⟨g2 + 1, ?_⟩
    simp only [exec]
    rw [show bd.append [Token.EndLoop] = bd ++ [Token.EndLoop] from rfl]
    rw [hsplit]
    dsimp only
    rw [if_neg hnz]
    rw [hfin] at hg2
    exact hg2

/-! ## Per-idiom body semantics and iterate closed forms -/

lemma bodyMoveA (w : Nat) (pol : EofPolicy) (m1 a1 : Int) (hm1 : m1 ≠ 0)
    (t : Int → Int) (p : Int) (i o : List Int) :
    execTerm w pol [Token.Add (-1), Token.Move m1, Token.Add a1, Token.Move (-m1)]
      ⟨t, p, i, o⟩
      ⟨upd ((fun q u => upd u (q + m1) (wrap w (u (q + m1) + a1))) p t) p (wrap w (t p - 1)),
       p, i, o⟩ := by
  refine ⟨4, ?_⟩
  simp only [exec, stepTok]
  have hne : p + m1 ≠ p := by intro hc; apply hm1; linarith
  rw [upd_ne t p (wrap w (t p + -1)) (p + m1) hne]
  rw [upd_comm t p (wrap w (t p + -1)) (p + m1) (wrap w (t (p + m1) + a1)) (Ne.symm hne)]
  rw [show p + m1 + -m1 = p from by ring, show t p + -1 = t p - 1 from by ring]

lemma bodyMoveB (w : Nat) (pol : EofPolicy) (m1 a1 : Int) (hm1 : m1 ≠ 0)
    (t : Int → Int) (p : Int) (i o : List Int) :
    execTerm w pol [Token.Move m1, Token.Add a1, Token.Move (-m1), Token.Add (-1)]
      ⟨t, p, i, o⟩
      ⟨upd ((fun q u => upd u (q + m1) (wrap w (u (q + m1) + a1))) p t) p (wrap w (t p - 1)),
       p, i, o⟩ := by
  refine ⟨4, ?_⟩
  simp only [exec, stepTok]
  have hne : p + m1 ≠ p := by intro hc; apply hm1; linarith
  rw [show p + m1 + -m1 = p from by ring]
  rw [upd_ne t (p + m1) (wrap w (t (p + m1) + a1)) p (Ne.symm hne)]
  rw [show t p + -1 = t p - 1 from by ring]

lemma bodyCopyA (w : Nat) (pol : EofPolicy) (m1 m2 a1 a2 : Int)
    (hm1 : m1 ≠ 0) (hm2 : m2 ≠ 0) (hms : m1 + m2 ≠ 0)
    (t : Int → Int) (p : Int) (i o : List Int) :
    execTerm w pol [Token.Add (-1), Token.Move m1, Token.Add a1, Token.Move m2,
      Token.Add a2, Token.Move (-(m1 + m2))]
      ⟨t, p, i, o⟩
      ⟨upd ((fun q u => upd (upd u (q + m1) (wrap w (u (q + m1) + a1)))
              (q + m1 + m2) (wrap w (u (q + m1 + m2) + a2))) p t)
         p (wrap w (t p - 1)), p, i, o⟩ := by
  refine ⟨6, ?_⟩
  simp only [exec, stepTok]
  have hne1 : p + m1 ≠ p := by intro hc; apply hm1; linarith
  have hne2 : p + m1 + m2 ≠ p := by intro hc; apply hms; linarith
  have hne21 : p + m1 + m2 ≠ p + m1 := by intro hc; apply hm2; linarith
  rw [upd_ne t p (wrap w (t p + -1)) (p + m1) hne1]
  rw [upd_ne (upd t p (wrap w (t p + -1))) (p + m1) (wrap w (t (p + m1) + a1))
    (p + m1 + m2) hne21]
  rw [upd_ne t p (wrap w (t p + -1)) (p + m1 + m2) hne2]
  rw [upd_comm t p (wrap w (t p + -1)) (p + m1) (wrap w (t (p + m1) + a1)) (Ne.symm hne1)]
  rw [upd_comm (upd t (p + m1) (wrap w (t (p + m1) + a1))) p (wrap w (t p + -1))
    (p + m1 + m2) (wrap w (t (p + m1 + m2) + a2)) (Ne.symm hne2)]
  rw [show p + m1 + m2 + -(m1 + m2) = p from by ring, show t p + -1 = t p - 1 from by ring]

lemma bodyCopyB (w : Nat) (pol : EofPolicy) (m1 m2 a1 a2 : Int)
    (hm1 : m1 ≠ 0) (hm2 : m2 ≠ 0) (hms : m1 + m2 ≠ 0)
    (t : Int → Int) (p : Int) (i o : List Int) :
    execTerm w pol [Token.Move m1, Token.Add a1, Token.Move m2, Token.Add a2,
      Token.Move (-(m1 + m2)), Token.Add (-1)]
      ⟨t, p, i, o⟩
      ⟨upd ((fun q u => upd (upd u (q + m1) (wrap w (u (q + m1) + a1)))
              (q + m1 + m2) (wrap w (u (q + m1 + m2) + a2))) p t)
         p (wrap w (t p - 1)), p, i, o⟩ := by
  refine ⟨6, ?_⟩
  simp only [exec, stepTok]
  have hne1 : p + m1 ≠ p := by intro hc; apply hm1; linarith
  have hne2 : p + m1 + m2 ≠ p := by intro hc; apply hms; linarith
  have hne21 : p + m1 + m2 ≠ p + m1 := by intro hc; apply hm2; linarith
  rw [show p + m1 + m2 + -(m1 + m2) = p from by ring]
  rw [upd_ne t (p + m1) (wrap w (t (p + m1) + a1)) (p + m1 + m2) hne21]
  rw [upd_ne (upd t (p + m1) (wrap w (t (p + m1) + a1)))
    (p + m1 + m2) (wrap w (t (p + m1 + m2) + a2)) p (Ne.symm hne2)]
  rw [upd_ne t (p + m1) (wrap w (t (p + m1) + a1)) p (Ne.symm hne1)]
  rw [show t p + -1 = t p - 1 from by ring]

lemma iter_add (w : Nat) (d1 a1 : Int) :
    ∀ v (t : Int → Int), wfT w t →
      (fun u => upd u d1 (wrap w (u d1 + a1)))^[v] t
        = upd t d1 (wrap w (t d1 + (v : Int) * a1)) := by
  intro v
  induction v with
  | zero =>
    intro t hwf
    simp only [Function.iterate_zero_apply, Nat.cast_zero, zero_mul, add_zero]
    rw [wrap_eq_self w (t d1) (hwf d1).1 (hwf d1).2]
    exact (upd_self t d1 (t d1) rfl).symm
  | succ k ih =>
    intro t hwf
    rw [Function.iterate_succ_apply]
    rw [ih (upd t d1 (wrap w (t d1 + a1))) (wfT_upd_wrap w t d1 _ hwf)]
    rw [upd_same, upd_upd, wrap_wrap_add]
    rw [show t d1 + a1 + (k : Int) * a1 = t d1 + ((k + 1 : Nat) : Int) * a1 from by push_cast; ring]

lemma iter_add2 (w : Nat) (d1 d2 a1 a2 : Int) (hdd : d2 ≠ d1) :
    ∀ v (t : Int → Int), wfT w t →
      (fun u => upd (upd u d1 (wrap w (u d1 + a1))) d2 (wrap w (u d2 + a2)))^[v] t
        = upd (upd t d1 (wrap w (t d1 + (v : Int) * a1)))
            d2 (wrap w (t d2 + (v : Int) * a2)) := by
  intro v
  induction v with
  | zero =>
    intro t hwf
    simp only [Function.iterate_zero_apply, Nat.cast_zero, zero_mul, add_zero]
    rw [wrap_eq_self w (t d1) (hwf d1).1 (hwf d1).2,
      wrap_eq_self w (t d2) (hwf d2).1 (hwf d2).2]
    rw [upd_self t d1 (t d1) rfl]
    exact (upd_self t d2 (t d2) rfl).symm
  | succ k ih =>
    intro t hwf
    rw [Function.iterate_succ_apply]
    rw [ih _ (wfT_upd_wrap w _ d2 _ (wfT_upd_wrap w t d1 _ hwf))]
    rw [upd_ne (upd t d1 (wrap w (t d1 + a1))) d2 (wrap w (t d2 + a2)) d1 (Ne.symm hdd)]
    rw [upd_same, upd_same]
    rw [upd_comm (upd t d1 (wrap w (t d1 + a1))) d2 (wrap w (t d2 + a2)) d1
      (wrap w (wrap w (t d1 + a1) + (k : Int) * a1)) hdd]
    rw [upd_upd, upd_upd, wrap_wrap_add, wrap_wrap_add]
    rw [show t d1 + a1 + (k : Int) * a1 = t d1 + ((k + 1 : Nat) : Int) * a1 from by push_cast; ring]
    rw [show t d2 + a2 + (k : Int) * a2 = t d2 + ((k + 1 : Nat) : Int) * a2 from by push_cast; ring]

/-! ## Per-idiom equivalence: matched window versus replacement -/

lemma moveEquivA (w : Nat) (pol : EofPolicy) (m1 a1 : Int) (hm1 : m1 ≠ 0)
    (s : Mach) (hwf : wfT w s.tape) :
    ∃ s', execTerm w pol [Token.BeginLoop, Token.Add (-1), Token.Move m1,
        Token.Add a1, Token.Move (-m1), Token.EndLoop] s s'
      ∧ execTerm w pol [Token.Mult m1 a1, Token.Zero] s s' := by
  obtain ⟨t, p, i, o⟩ := s
  have hwf' : wfT w t := hwf
  obtain ⟨v, hv⟩ : ∃ v : Nat, t p = (v : Int) :=
    ⟨(t p).toNat, (Int.toNat_of_nonneg (hwf' p).1).symm⟩
  refine ⟨⟨upd (upd t (p + m1) (wrap w (t (p + m1) + (v : Int) * a1))) p 0, p, i, o⟩, ?_, ?_⟩
  · have hrun := loopRun w pol
      [Token.Add (-1), Token.Move m1, Token.Add a1, Token.Move (-m1)]
      (fun q u => upd u (q + m1) (wrap w (u (q + m1) + a1)))
      (by rfl)
      (fun t' p' i' o' _ => bodyMoveA w pol m1 a1 hm1 t' p' i' o')
      (by
        intro p' t' x
        have hne' : p' + m1 ≠ p' := by intro hc; apply hm1; linarith
        dsimp only
        rw [upd_ne t' p' x (p' + m1) hne']
        rw [upd_comm t' p' x (p' + m1) (wrap w (t' (p' + m1) + a1)) (Ne.symm hne')])
      (by
        intro p' t' h
        exact wfT_upd_wrap w t' (p' + m1) (t' (p' + m1) + a1) h)
      v t p i o hwf' hv
    rw [show ((fun q u => upd u (q + m1) (wrap w (u (q + m1) + a1))) p)
      = (fun u => upd u (p + m1) (wrap w (u (p + m1) + a1))) from rfl] at hrun
    rw [iter_add w (p + m1) a1 v t hwf'] at hrun
    exact hrun
  · refine ⟨2, ?_⟩
    simp only [exec, stepTok]
    rw [hv]

lemma moveEquivB (w : Nat) (pol : EofPolicy) (m1 a1 : Int) (hm1 : m1 ≠ 0)
    (s : Mach) (hwf : wfT w s.tape) :
    ∃ s', execTerm w pol [Token.BeginLoop, Token.Move m1, Token.Add a1,
        Token.Move (-m1), Token.Add (-1), Token.EndLoop] s s'
      ∧ execTerm w pol [Token.Mult m1 a1, Token.Zero] s s' := by
  obtain ⟨t, p, i, o⟩ := s
  have hwf' : wfT w t := hwf
  obtain ⟨v, hv⟩ : ∃ v : Nat, t p = (v : Int) :=
    ⟨(t p).toNat, (Int.toNat_of_nonneg (hwf' p).1).symm⟩
  refine ⟨⟨upd (upd t (p + m1) (wrap w (t (p + m1) + (v : Int) * a1))) p 0, p, i, o⟩, ?_, ?_⟩
  · have hrun := loopRun w pol
      [Token.Move m1, Token.Add a1, Token.Move (-m1), Token.Add (-1)]
      (fun q u => upd u (q + m1) (wrap w (u (q + m1) + a1)))
      (by rfl)
      (fun t' p' i' o' _ => bodyMoveB w pol m1 a1 hm1 t' p' i' o')
      (by
        intro p' t' x
        have hne' : p' + m1 ≠ p' := by intro hc; apply hm1; linarith
        dsimp only
        rw [upd_ne t' p' x (p' + m1) hne']
        rw [upd_comm t' p' x (p' + m1) (wrap w (t' (p' + m1) + a1)) (Ne.symm hne')])
      (by
        intro p' t' h
        exact wfT_upd_wrap w t' (p' + m1) (t' (p' + m1) + a1) h)
      v t p i o hwf' hv
    rw [show ((fun q u => upd u (q + m1) (wrap w (u (q + m1) + a1))) p)
      = (fun u => upd u (p + m1) (wrap w (u (p + m1) + a1))) from rfl] at hrun
    rw [iter_add w (p + m1) a1 v t hwf'] at hrun
    exact hrun
  · refine ⟨2, ?_⟩
    simp only [exec, stepTok]
    rw [hv]

lemma copyEquivA (w : Nat) (pol : EofPolicy) (m1 m2 a1 a2 : Int)
    (hm1 : m1 ≠ 0) (hm2 : m2 ≠ 0) (hms : m1 + m2 ≠ 0)
    (s : Mach) (hwf : wfT w s.tape) :
    ∃ s', execTerm w pol [Token.BeginLoop, Token.Add (-1), Token.Move m1,
        Token.Add a1, Token.Move m2, Token.Add a2, Token.Move (-(m1 + m2)),
        Token.EndLoop] s s'
      ∧ execTerm w pol [Token.Mult m1 a1, Token.Mult (m1 + m2) a2, Token.Zero] s s' := by
  obtain ⟨t, p, i, o⟩ := s
  have hwf' : wfT w t := hwf
  have hne1 : p + m1 ≠ p := by intro hc; apply hm1; linarith
  have hne2 : p + m1 + m2 ≠ p := by intro hc; apply hms; linarith
  have hne21 : p + m1 + m2 ≠ p + m1 := by intro hc; apply hm2; linarith
  obtain ⟨v, hv⟩ : ∃ v : Nat, t p = (v : Int) :=
    ⟨(t p).toNat, (Int.toNat_of_nonneg (hwf' p).1).symm⟩
  refine ⟨⟨upd (upd (upd t (p + m1) (wrap w (t (p + m1) + (v : Int) * a1)))
      (p + m1 + m2) (wrap w (t (p + m1 + m2) + (v : Int) * a2))) p 0, p, i, o⟩, ?_, ?_⟩
  · have hrun := loopRun w pol
      [Token.Add (-1), Token.Move m1, Token.Add a1, Token.Move m2,
       Token.Add a2, Token.Move (-(m1 + m2))]
      (fun q u => upd (upd u (q + m1) (wrap w (u (q + m1) + a1)))
        (q + m1 + m2) (wrap w (u (q + m1 + m2) + a2)))
      (by rfl)
      (fun t' p' i' o' _ => bodyCopyA w pol m1 m2 a1 a2 hm1 hm2 hms t' p' i' o')
      (by
        intro p' t' x
        have hne1' : p' + m1 ≠ p' := by intro hc; apply hm1; linarith
        have hne2' : p' + m1 + m2 ≠ p' := by intro hc; apply hms; linarith
        dsimp only
        rw [upd_ne t' p' x (p' + m1) hne1']
        rw [upd_ne t' p' x (p' + m1 + m2) hne2']
        rw [upd_comm t' p' x (p' + m1) (wrap w (t' (p' + m1) + a1)) (Ne.symm hne1')]
        rw [upd_comm (upd t' (p' + m1) (wrap w (t' (p' + m1) + a1))) p' x
          (p' + m1 + m2) (wrap w (t' (p' + m1 + m2) + a2)) (Ne.symm hne2')])
      (by
        intro p' t' h
        exact wfT_upd_wrap w _ (p' + m1 + m2) _
          (wfT_upd_wrap w t' (p' + m1) _ h))
      v t p i o hwf' hv
    rw [show ((fun q u => upd (upd u (q + m1) (wrap w (u (q + m1) + a1)))
        (q + m1 + m2) (wrap w (u (q + m1 + m2) + a2))) p)
      = (fun u => upd (upd u (p + m1) (wrap w (u (p + m1) + a1)))
          (p + m1 + m2) (wrap w (u (p + m1 + m2) + a2))) from rfl] at hrun
    rw [iter_add2 w (p + m1) (p + m1 + m2) a1 a2 hne21 v t hwf'] at hrun
    exact hrun
  · refine ⟨3, ?_⟩
    simp only [exec, stepTok]
    rw [show p + (m1 + m2) = p + m1 + m2 from by ring]
    rw [upd_ne t (p + m1) (wrap w (t (p + m1) + t p * a1)) (p + m1 + m2) hne21]
    rw [upd_ne t (p + m1) (wrap w (t (p + m1) + t p * a1)) p (Ne.symm hne1)]
    rw [hv]

lemma copyEquivB (w : Nat) (pol : EofPolicy) (m1 m2 a1 a2 : Int)
    (hm1 : m1 ≠ 0) (hm2 : m2 ≠ 0) (hms : m1 + m2 ≠ 0)
    (s : Mach) (hwf : wfT w s.tape) :
    ∃ s', execTerm w pol [Token.BeginLoop, Token.Move m1, Token.Add a1,
        Token.Move m2, Token.Add a2, Token.Move (-(m1 + m2)), Token.Add (-1),
        Token.EndLoop] s s'
      ∧ execTerm w pol [Token.Mult m1 a1, Token.Mult (m1 + m2) a2, Token.Zero] s s' := by
  obtain ⟨t, p, i, o⟩ := s
  have hwf' : wfT w t := hwf
  have hne1 : p + m1 ≠ p := by intro hc; apply hm1; linarith
  have hne2 : p + m1 + m2 ≠ p := by intro hc; apply hms; linarith
  have hne21 : p + m1 + m2 ≠ p + m1 := by intro hc; apply hm2; linarith
  obtain ⟨v, hv⟩ : ∃ v : Nat, t p = (v : Int) :=
    ⟨(t p).toNat, (Int.toNat_of_nonneg (hwf' p).1).symm⟩
  refine ⟨⟨upd (upd (upd t (p + m1) (wrap w (t (p + m1) + (v : Int) * a1)))
      (p + m1 + m2) (wrap w (t (p + m1 + m2) + (v : Int) * a2))) p 0, p, i, o⟩, ?_, ?_⟩
  · have hrun := loopRun w pol
      [Token.Move m1, Token.Add a1, Token.Move m2, Token.Add a2,
       Token.Move (-(m1 + m2)), Token.Add (-1)]
      (fun q u => upd (upd u (q + m1) (wrap w (u (q + m1) + a1)))
        (q + m1 + m2) (wrap w (u (q + m1 + m2) + a2)))
      (by rfl)
      (fun t' p' i' o' _ => bodyCopyB w pol m1 m2 a1 a2 hm1 hm2 hms t' p' i' o')
      (by
        intro p' t' x
        have hne1' : p' + m1 ≠ p' := by intro hc; apply hm1; linarith
        have hne2' : p' + m1 + m2 ≠ p' := by intro hc; apply hms; linarith
        dsimp only
        rw [upd_ne t' p' x (p' + m1) hne1']
        rw [upd_ne t' p' x (p' + m1 + m2) hne2']
        rw [upd_comm t' p' x (p' + m1) (wrap w (t' (p' + m1) + a1)) (Ne.symm hne1')]
        rw [upd_comm (upd t' (p' + m1) (wrap w (t' (p' + m1) + a1))) p' x
          (p' + m1 + m2) (wrap w (t' (p' + m1 + m2) + a2)) (Ne.symm hne2')])
      (by
        intro p' t' h
        exact wfT_upd_wrap w _ (p' + m1 + m2) _
          (wfT_upd_wrap w t' (p' + m1) _ h))
      v t p i o hwf' hv
    rw [show ((fun q u => upd (upd u (q + m1) (wrap w (u (q + m1) + a1)))
        (q + m1 + m2) (wrap w (u (q + m1 + m2) + a2))) p)
      = (fun u => upd (upd u (p + m1) (wrap w (u (p + m1) + a1)))
          (p + m1 + m2) (wrap w (u (p + m1 + m2) + a2))) from rfl] at hrun
    rw [iter_add2 w (p + m1) (p + m1 + m2) a1 a2 hne21 v t hwf'] at hrun
    exact hrun
  · refine ⟨3, ?_⟩
    simp only [exec, stepTok]
    rw [show p + (m1 + m2) = p + m1 + m2 from by ring]
    rw [upd_ne t (p + m1) (wrap w (t (p + m1) + t p * a1)) (p + m1 + m2) hne21]
    rw [upd_ne t (p + m1) (wrap w (t (p + m1) + t p * a1)) p (Ne.symm hne1)]
    rw [hv]

lemma addOffEquiv1 (w : Nat) (pol : EofPolicy) (m1 a : Int) (s : Mach) :
    ∃ s', execTerm w pol [Token.Move m1, Token.Add a, Token.Move (-m1)] s s'
      ∧ execTerm w pol [Token.AddOffset a m1] s s' := by
  obtain ⟨t, p, i, o⟩ := s
  refine ⟨⟨upd t (p + m1) (wrap w (t (p + m1) + a)), p, i, o⟩, ⟨3, ?_⟩, ⟨1, ?_⟩⟩
  · simp only [exec, stepTok]
    rw [show p + m1 + -m1 = p from by ring]
  · simp only [exec, stepTok]

lemma addOffEquiv2 (w : Nat) (pol : EofPolicy) (m1 m2 a : Int) (s : Mach) :
    ∃ s', execTerm w pol [Token.Move m1, Token.Add a, Token.Move m2] s s'
      ∧ execTerm w pol [Token.AddOffset a m1, Token.Move (m1 + m2)] s s' := by
  obtain ⟨t, p, i, o⟩ := s
  refine ⟨⟨upd t (p + m1) (wrap w (t (p + m1) + a)), p + m1 + m2, i, o⟩, ⟨3, ?_⟩, ⟨2, ?_⟩⟩
  · simp only [exec, stepTok]
  · simp only [exec, stepTok]
    rw [show p + (m1 + m2) = p + m1 + m2 from by ring]

lemma zeroOffEquiv1 (w : Nat) (pol : EofPolicy) (m1 : Int) (s : Mach) :
    ∃ s', execTerm w pol [Token.Move m1, Token.Zero, Token.Move (-m1)] s s'
      ∧ execTerm w pol [Token.ZeroOffset m1] s s' := by
  obtain ⟨t, p, i, o⟩ := s
  refine ⟨⟨upd t (p + m1) 0, p, i, o⟩, ⟨3, ?_⟩, ⟨1, ?_⟩⟩
  · simp only [exec, stepTok]
    rw [show p + m1 + -m1 = p from by ring]
  · simp only [exec, stepTok]

lemma zeroOffEquiv2 (w : Nat) (pol : EofPolicy) (m1 m2 : Int) (s : Mach) :
    ∃ s', execTerm w pol [Token.Move m1, Token.Zero, Token.Move m2] s s'
      ∧ execTerm w pol [Token.ZeroOffset m1, Token.Move (m1 + m2)] s s' := by
  obtain ⟨t, p, i, o⟩ := s
  refine ⟨⟨upd t (p + m1) 0, p + m1 + m2, i, o⟩, ⟨3, ?_⟩, ⟨2, ?_⟩⟩
  · simp only [exec, stepTok]
  · simp only [exec, stepTok]
    rw [show p + (m1 + m2) = p + m1 + m2 from by ring]

/-! ## Structure of the peephole scan -/

lemma peepGo_fuel (o : Optimisations) :
    ∀ f f' ts, ts.length ≤ f → ts.length ≤ f' → peepGo o f ts = peepGo o f' ts := by
  intro f
  induction f with
  | zero =>
    intro f' ts h _
    have hnil : ts = [] := List.length_eq_zero.mp (by omega)
    subst hnil
    cases f' <;> simp [peepGo]
  | succ g ih =>
    intro f' ts h h'
    cases ts with
    | nil => cases f' <;> simp [peepGo]
    | cons t rest =>
      simp only [List.length_cons] at h h'
      obtain ⟨g', rfl⟩ : ∃ g', f' = g' + 1 := ⟨f' - 1, by omega⟩
      simp only [peepGo]
      cases hm : peepMatch o (window (t :: rest)) with
      | none =>
        rw [ih g' rest (by omega) (by omega)]
      | some rk =>
        obtain ⟨repl, k⟩ := rk
        dsimp only
        rw [ih g' (rest.drop k) (by simp [List.length_drop]; omega)
          (by simp [List.length_drop]; omega)]

lemma peepOpt_cons (o : Optimisations) (t : Token) (rest : List Token) :
    peepOpt o (t :: rest) =
      match peepMatch o (window (t :: rest)) with
      | some (repl, k) => repl ++ peepOpt o (rest.drop k)
      | none => t :: peepOpt o rest := by
  unfold peepOpt
  simp only [List.length_cons, peepGo]
  cases hm : peepMatch o (window (t :: rest)) with
  | none => rfl
  | some rk =>
    obtain ⟨repl, k⟩ := rk
    dsimp only
    rw [peepGo_fuel o rest.length (rest.drop k).length (rest.drop k)
      (by simp [List.length_drop]) le_rfl]

/-- Shape of every replacement the idiom match can emit: the loop arms emit
`Mult`/`Zero` with skip 5 or 7; the offset arms emit `AddOffset`/`ZeroOffset`
with skip 2, and their residual `Move(m1+m2)` only when `m1 ≠ -m2`, so its
payload is nonzero. -/
lemma peepMatch_inv (o : Optimisations) (wn : List Token) (r : List Token) (k : Nat)
    (h : peepMatch o wn = some (r, k)) :
    (∃ m1 a1, r = [Token.Mult m1 a1, Token.Zero] ∧ k = 5) ∨
    (∃ m1 m2 a1 a2, r = [Token.Mult m1 a1, Token.Mult (m1 + m2) a2, Token.Zero] ∧ k = 7) ∨
    (∃ a m1, r = [Token.AddOffset a m1] ∧ k = 2) ∨
    (∃ a m1 m2, r = [Token.AddOffset a m1, Token.Move (m1 + m2)] ∧ k = 2 ∧ m1 + m2 ≠ 0) ∨
    (∃ m1, r = [Token.ZeroOffset m1] ∧ k = 2) ∨
    (∃ m1 m2, r = [Token.ZeroOffset m1, Token.Move (m1 + m2)] ∧ k = 2 ∧ m1 + m2 ≠ 0) := by
  unfold peepMatch at h
  split at h
  all_goals try (simp at h)
  · obtain ⟨hg, hr, hk⟩ := h
    exact Or.inl ⟨_, _, hr.symm, hk.symm⟩
  · obtain ⟨hg, hr, hk⟩ := h
    exact Or.inl ⟨_, _, hr.symm, hk.symm⟩
  · obtain ⟨hg, hr, hk⟩ := h
    exact Or.inr (Or.inl ⟨_, _, _, _, hr.symm, hk.symm⟩)
  · obtain ⟨hg, hr, hk⟩ := h
    exact Or.inr (Or.inl ⟨_, _, _, _, hr.symm, hk.symm⟩)
  · rename_i m1 a m2 r3 r4 r5 r6 r7
    obtain ⟨hg, hr, hk⟩ := h
    by_cases hc : m1 = -m2
    · rw [if_pos hc] at hr
      exact Or.inr (Or.inr (Or.inl ⟨a, m1, hr.symm, hk.symm⟩))
    · rw [if_neg hc] at hr
      exact Or.inr (Or.inr (Or.inr (Or.inl
        ⟨a, m1, m2, hr.symm, hk.symm, by intro hs; apply hc; linarith⟩)))
  · rename_i m1 m2 r3 r4 r5 r6 r7
    obtain ⟨hg, hr, hk⟩ := h
    by_cases hc : m1 = -m2
    · rw [if_pos hc] at hr
      exact Or.inr (Or.inr (Or.inr (Or.inr (Or.inl ⟨m1, hr.symm, hk.symm⟩))))
    · rw [if_neg hc] at hr
      exact Or.inr (Or.inr (Or.inr (Or.inr (Or.inr
        ⟨m1, m2, hr.symm, hk.symm, by intro hs; apply hc; linarith⟩))))

/-- Tokens surviving the post-tokenization pruning are neither `Null` nor
zero-valued `Add`/`Move`. -/
lemma prune_good (ts : List Token) :
    ∀ t ∈ prune ts, t ≠ Token.Null ∧ t ≠ Token.Add 0 ∧ t ≠ Token.Move 0 := by
  intro t ht
  simp only [prune] at ht
  have hp := (List.mem_filter.mp ht).2
  cases t <;> simp_all

/-- The peephole scan preserves the pruning invariant: no `Null`, `Add(0)`
or `Move(0)` in its output if there is none in its input. -/
lemma peepGo_good (o : Optimisations) :
    ∀ f ts, (∀ t ∈ ts, t ≠ Token.Null ∧ t ≠ Token.Add 0 ∧ t ≠ Token.Move 0) →
      ∀ t ∈ peepGo o f ts, t ≠ Token.Null ∧ t ≠ Token.Add 0 ∧ t ≠ Token.Move 0 := by
  intro f
  induction f with
  | zero =>
    intro ts hts t ht
    cases ts with
    | nil => simp [peepGo] at ht
    | cons a rest => exact hts t (by simpa [peepGo] using ht)
  | succ g ih =>
    intro ts hts t ht
    cases ts with
    | nil => simp [peepGo] at ht
    | cons a rest =>
      simp only [peepGo] at ht
      cases hm : peepMatch o (window (a :: rest)) with
      | none =>
        rw [hm] at ht
        dsimp only at ht
        rcases List.mem_cons.mp ht with rfl | htr
        · exact hts t (List.mem_cons_self t rest)
        · exact ih rest (fun u hu => hts u (List.mem_cons_of_mem a hu)) t htr
      | some rk =>
        obtain ⟨repl, k⟩ := rk
        rw [hm] at ht
        dsimp only at ht
        rcases List.mem_append.mp ht with htl | htr
        · rcases peepMatch_inv o _ _ _ hm with
            ⟨m1, a1, hr, -⟩ | ⟨m1, m2, a1, a2, hr, -⟩ | ⟨aa, m1, hr, -⟩ |
            ⟨aa, m1, m2, hr, -, hnz⟩ | ⟨m1, hr, -⟩ | ⟨m1, m2, hr, -, hnz⟩ <;>
            subst hr
          · rcases (by simpa using htl : t = Token.Mult m1 a1 ∨ t = Token.Zero) with rfl | rfl <;> simp
          · rcases (by simpa using htl :
                t = Token.Mult m1 a1 ∨ t = Token.Mult (m1 + m2) a2 ∨ t = Token.Zero) with
              rfl | rfl | rfl <;> simp
          · rcases (by simpa using htl : t = Token.AddOffset aa m1) with rfl
            simp
          · rcases (by simpa using htl :
                t = Token.AddOffset aa m1 ∨ t = Token.Move (m1 + m2)) with rfl | rfl <;>
              simp [hnz]
          · rcases (by simpa using htl : t = Token.ZeroOffset m1) with rfl
            simp
          · rcases (by simpa using htl :
                t = Token.ZeroOffset m1 ∨ t = Token.Move (m1 + m2)) with rfl | rfl <;>
              simp [hnz]
        · exact ih (rest.drop k)
            (fun u hu => hts u (List.mem_cons_of_mem a (List.drop_subset k rest hu))) t htr

/-- Only `Null` has no emitter line. -/
lemma emitLine_isSome (ic : String) (t : Token) (h : t ≠ Token.Null) :
    (emitLine ic t).isSome = true := by
  cases t <;> simp_all [emitLine]

/-- Loop markers inside a matched window: the consumed span of a loop arm
contributes exactly one adjacent `BeginLoop, EndLoop` pair, the consumed
span of an offset arm none, and no replacement contains a loop marker. -/
lemma peepMatch_br (o : Optimisations) (wn : List Token) (r : List Token) (k : Nat)
    (h : peepMatch o wn = some (r, k)) :
    brackets r = [] ∧ k + 1 ≤ 8 ∧
      (brackets (wn.take (k + 1)) = [Token.BeginLoop, Token.EndLoop] ∨
        brackets (wn.take (k + 1)) = []) := by
  unfold peepMatch at h
  split at h
  all_goals try (simp at h)
  · obtain ⟨hg, hr, hk⟩ := h
    subst hk
    exact ⟨by simp [← hr, brackets, isBr], by omega, Or.inl (by simp [brackets, isBr])⟩
  · obtain ⟨hg, hr, hk⟩ := h
    subst hk
    exact ⟨by simp [← hr, brackets, isBr], by omega, Or.inl (by simp [brackets, isBr])⟩
  · obtain ⟨hg, hr, hk⟩ := h
    subst hk
    exact ⟨by simp [← hr, brackets, isBr], by omega, Or.inl (by simp [brackets, isBr])⟩
  · obtain ⟨hg, hr, hk⟩ := h
    subst hk
    exact ⟨by simp [← hr, brackets, isBr], by omega, Or.inl (by simp [brackets, isBr])⟩
  · obtain ⟨hg, hr, hk⟩ := h
    subst hk
    refine ⟨?_, by omega, Or.inr (by simp [brackets, isBr])⟩
    rw [← hr]
    split <;> simp [brackets, isBr]
  · obtain ⟨hg, hr, hk⟩ := h
    subst hk
    refine ⟨?_, by omega, Or.inr (by simp [brackets, isBr])⟩
    rw [← hr]
    split <;> simp [brackets, isBr]

lemma brackets_replicate_null (m : Nat) :
    brackets (List.replicate m Token.Null) = [] := by
  induction m with
  | zero => rfl
  | succ mm ih => simp [brackets, List.replicate_succ, List.filter, isBr, ih]

lemma brackets_take_window (ts : List Token) (n : Nat) (hn : n ≤ 8) :
    brackets ((window ts).take n) = brackets (ts.take n) := by
  unfold window
  rw [List.take_take, min_eq_left hn, List.take_append_eq_append_take]
  unfold brackets
  rw [List.filter_append]
  have hrep := brackets_replicate_null (min (n - ts.length) 8)
  rw [List.take_replicate]
  unfold brackets at hrep
  rw [hrep, List.append_nil]

lemma PairDrop_refl : ∀ l : List Token, PairDrop l l := by
  intro l
  induction l with
  | nil => exact PairDrop.nil
  | cons t r ih => exact PairDrop.keep t ih

lemma PairDrop_balAux {xs ys : List Token} (h : PairDrop xs ys) :
    ∀ n, balAux xs n = balAux ys n := by
  induction h with
  | nil => intro n; rfl
  | keep t h ih =>
    intro n
    cases t
    case EndLoop =>
      cases n with
      | zero => simp [balAux]
      | succ m => simp [balAux, ih]
    all_goals simp [balAux, ih]
  | drop h ih =>
    intro n
    simpa [balAux] using ih n

/-- The peephole scan deletes loop markers only as adjacent
`BeginLoop, EndLoop` pairs and copies every other one through. -/
lemma peepGo_pairDrop (o : Optimisations) :
    ∀ f ts, PairDrop (brackets ts) (brackets (peepGo o f ts)) := by
  intro f
  induction f with
  | zero =>
    intro ts
    cases ts with
    | nil => exact PairDrop_refl _
    | cons a rest => exact PairDrop_refl _
  | succ g ih =>
    intro ts
    cases ts with
    | nil => exact PairDrop_refl _
    | cons a rest =>
      simp only [peepGo]
      cases hm : peepMatch o (window (a :: rest)) with
      | none =>
        dsimp only
        by_cases hb : isBr a
        · rw [show brackets (a :: rest) = a :: brackets rest from by
            simp [brackets, List.filter_cons, hb]]
          rw [show brackets (a :: peepGo o g rest) = a :: brackets (peepGo o g rest) from by
            simp [brackets, List.filter_cons, hb]]
          exact PairDrop.keep a (ih rest)
        · rw [show brackets (a :: rest) = brackets rest from by
            simp [brackets, List.filter_cons, hb]]
          rw [show brackets (a :: peepGo o g rest) = brackets (peepGo o g rest) from by
            simp [brackets, List.filter_cons, hb]]
          exact ih rest
      | some rk =>
        obtain ⟨repl, k⟩ := rk
        dsimp only
        obtain ⟨hrepl, hk8, hbr⟩ := peepMatch_br o (window (a :: rest)) repl k hm
        have hra : brackets (repl ++ peepGo o g (rest.drop k))
            = brackets (peepGo o g (rest.drop k)) := by
          unfold brackets
          rw [List.filter_append]
          unfold brackets at hrepl
          rw [hrepl, List.nil_append]
        rw [hra]
        have hsplit : brackets (a :: rest)
            = brackets ((a :: rest).take (k + 1)) ++ brackets ((a :: rest).drop (k + 1)) := by
          conv_lhs => rw [← List.take_append_drop (k + 1) (a :: rest)]
          unfold brackets
          rw [List.filter_append]
        rw [hsplit]
        have hdrop : (a :: rest).drop (k + 1) = rest.drop k := rfl
        rw [hdrop]
        have hw := brackets_take_window (a :: rest) (k + 1) hk8
        rcases hbr with hbe | hemp
        · rw [hw] at hbe
          rw [hbe]
          exact PairDrop.drop (ih (rest.drop k))
        · rw [hw] at hemp
          rw [hemp, List.nil_append]
          exact ih (rest.drop k)

lemma balAux_brackets : ∀ (ts : List Token) (n : Nat), balAux ts n = balAux (brackets ts) n := by
  intro ts
  induction ts with
  | nil => intro n; rfl
  | cons t rest ih =>
    intro n
    cases t
    case EndLoop =>
      cases n with
      | zero => simp [balAux, brackets, List.filter_cons, isBr]
      | succ m => simp [balAux, brackets, List.filter_cons, isBr, ih]
    all_goals simp [balAux, brackets, List.filter_cons, isBr, ih]

lemma optimisationsFor_mid (lv : Nat) (h2 : 2 ≤ lv) (h3 : ¬ 3 ≤ lv) :
    optimisationsFor lv = ⟨true, true, true, true, true, false, false⟩ := by
  have h1 : 1 ≤ lv := by omega
  simp [optimisationsFor, h1, h2, h3]

lemma optimisationsFor_high (lv : Nat) (h3 : 3 ≤ lv) :
    optimisationsFor lv = ⟨true, true, true, true, true, true, true⟩ := by
  have h1 : 1 ≤ lv := by omega
  have h2 : 2 ≤ lv := by omega
  simp [optimisationsFor, h1, h2, h3]

lemma pipeline_copy_example (lv : Nat) (h2 : 2 ≤ lv) :
    pipeline lv ("[->+>+<<]") = [Token.Mult 1 1, Token.Mult 2 1, Token.Zero] := by
  unfold pipeline
  by_cases h3 : 3 ≤ lv
  · rw [optimisationsFor_high lv h3]; decide
  · rw [optimisationsFor_mid lv h2 h3]; decide

lemma pipeline_addoff_example (lv : Nat) (h3 : 3 ≤ lv) :
    pipeline lv (">+<") = [Token.AddOffset 1 1] := by
  unfold pipeline
  rw [optimisationsFor_high lv h3]
  decide

/-!
## Claim theorems
-/

/-- C1 (counterexample): with `--bits 7` the run panics with the
configuration-error message, but the output file has already been created
(truncated) by `File::create` at `main.rs` line 29, which runs before the
cell-width validation of lines 32-36 — so the output path is not left
unwritten, refuting the claim as stated. -/
theorem bits_invalid_counterexample :
    (mainModel ⟨"7", false, false, false, "30000", 3⟩ "").panicMsg
        = some ("Error: bit count must be 8, 16, 32, or 64")
    ∧ (mainModel ⟨"7", false, false, false, "30000", 3⟩ "").outputCreated = true
    ∧ ¬ (mainModel ⟨"7", false, false, false, "30000", 3⟩ "").outputCreated = false := by
  refine ⟨by decide, by decide, by decide⟩

/-- C1 (amended): for every `--bits` value other than `8`, `16`, `32`, `64`
the run aborts with the descriptive configuration-error message and writes
no content to the output file, but the output file itself has already been
created and truncated before the validation runs. -/
theorem bits_invalid_aborts (a : Args) (inp : String)
    (h8 : a.bits ≠ "8") (h16 : a.bits ≠ "16") (h32 : a.bits ≠ "32") (h64 : a.bits ≠ "64") :
    (mainModel a inp).panicMsg = some ("Error: bit count must be 8, 16, 32, or 64")
    ∧ (mainModel a inp).written = []
    ∧ (mainModel a inp).outputCreated = true := by
  unfold mainModel
  have hd : datatypeOf a.bits = none := by
    unfold datatypeOf
    rw [if_neg]
    push_neg
    exact ⟨h8, h16, h32, h64⟩
  rw [hd]
  exact ⟨rfl, rfl, rfl⟩

/-- C1 witness: the amended claim applied at `--bits 7`. -/
theorem bits_invalid_aborts_witness :
    (mainModel ⟨"7", false, false, false, "30000", 3⟩ "").panicMsg
        = some ("Error: bit count must be 8, 16, 32, or 64")
    ∧ (mainModel ⟨"7", false, false, false, "30000", 3⟩ "").written = []
    ∧ (mainModel ⟨"7", false, false, false, "30000", 3⟩ "").outputCreated = true :=
  bits_invalid_aborts ⟨"7", false, false, false, "30000", 3⟩ ""
    (by decide) (by decide) (by decide) (by decide)

/-- C8: the character filter is idempotent — filtering a string twice
yields the same string as filtering it once. -/
theorem filter_idempotent (s : String) : bfFilterStr (bfFilterStr s) = bfFilterStr s := by
  unfold bfFilterStr bfFilter
  congr 1
  rw [show (String.mk (s.toList.filter isBF)).toList = s.toList.filter isBF from rfl]
  rw [List.filter_filter]
  simp

/-- C7: the peephole pass is a single pass — instructions it emits as
replacements are never re-scanned.  On `">>+<+++<"` the first rewrite
emits `AddOffset(1,2), Move(1)`, and the final output contains the window
`Move(1), Add(3), Move(-1)` which the add-offset idiom would match, yet it
is left unrewritten: running the optimizer again on its own output changes
it. -/
theorem single_pass_no_rescan :
    pipeline 3 (">>+<+++<")
        = [Token.AddOffset 1 2, Token.Move 1, Token.Add 3, Token.Move (-1)]
    ∧ peepMatch (optimisationsFor 3) (window [Token.Move 1, Token.Add 3, Token.Move (-1)])
        = some ([Token.AddOffset 3 1], 2)
    ∧ peepOpt (optimisationsFor 3)
        [Token.AddOffset 1 2, Token.Move 1, Token.Add 3, Token.Move (-1)]
        = [Token.AddOffset 1 2, Token.AddOffset 3 1]
    ∧ [Token.AddOffset 1 2, Token.AddOffset 3 1]
        ≠ [Token.AddOffset 1 2, Token.Move 1, Token.Add 3, Token.Move (-1)] := by
  refine ⟨by decide, by decide, by decide, by decide⟩

/-- C4: after pruning, the peephole pass never reintroduces `Add(0)` or
`Move(0)` — in particular the residual `Move(m1+m2)` of the offset shapes
has a nonzero payload — so the final sequence contains neither, for every
input and every flag configuration. -/
theorem no_zero_add_move_final (o : Optimisations) (s : String) (t : Token)
    (ht : t ∈ pipelineO o s) : t ≠ Token.Add 0 ∧ t ≠ Token.Move 0 := by
  unfold pipelineO peepOpt at ht
  have hg := peepGo_good o _ _ (prune_good _) t ht
  exact ⟨hg.2.1, hg.2.2⟩

/-- C4 witness: the claim applied to the single token produced by `"+"` at
level 3. -/
theorem no_zero_add_move_final_witness :
    Token.Add 1 ∈ pipelineO (optimisationsFor 3) ("+")
    ∧ Token.Add 1 ≠ Token.Add 0 ∧ Token.Add 1 ≠ Token.Move 0 :=
  ⟨by decide, no_zero_add_move_final (optimisationsFor 3) ("+") (Token.Add 1) (by decide)⟩

/-- C9: every token reaching the emitter is emittable — the `Null` padding
token never survives the pipeline, so the emitter's catch-all `panic!`
branch is unreachable for every input, flag configuration and
`In`-instruction text. -/
theorem emitter_total (o : Optimisations) (s : String) (ic : String) (t : Token)
    (ht : t ∈ pipelineO o s) : (emitLine ic t).isSome = true := by
  unfold pipelineO peepOpt at ht
  exact emitLine_isSome ic t (peepGo_good o _ _ (prune_good _) t ht).1

/-- C9 witness: the claim applied to the single token produced by `"+"` at
level 3. -/
theorem emitter_total_witness :
    (emitLine ("*ptr=getchar();") (Token.Add 1)).isSome = true :=
  emitter_total (optimisationsFor 3) ("+") ("*ptr=getchar();") (Token.Add 1) (by decide)

/-- C10: the peephole pass removes loop markers only as whole adjacent
`BeginLoop, EndLoop` pairs (the two markers of one matched loop idiom) and
copies all other loop markers through unchanged, so the output's bracket
sequence is the input's with balanced pairs deleted; in particular a
balanced input yields a balanced output. -/
theorem bracket_balance_preserved :
    (∀ (o : Optimisations) (ts : List Token),
      PairDrop (brackets ts) (brackets (peepOpt o ts)))
    ∧ (∀ (o : Optimisations) (ts : List Token),
      balancedTokens ts = true → balancedTokens (peepOpt o ts) = true) := by
  constructor
  · intro o ts
    exact peepGo_pairDrop o ts.length ts
  · intro o ts hb
    unfold balancedTokens at hb ⊢
    unfold peepOpt
    rw [balAux_brackets ts 0] at hb
    rw [balAux_brackets (peepGo o ts.length ts) 0]
    rw [← PairDrop_balAux (peepGo_pairDrop o ts.length ts) 0]
    exact hb

/-- C10 witness: the balanced token sequence of `"[->+<]"` stays balanced
through the level-2 peephole pass. -/
theorem bracket_balance_preserved_witness :
    balancedTokens [Token.BeginLoop, Token.Add (-1), Token.Move 1, Token.Add 1,
        Token.Move (-1), Token.EndLoop] = true
    ∧ balancedTokens (peepOpt (optimisationsFor 2) [Token.BeginLoop, Token.Add (-1),
        Token.Move 1, Token.Add 1, Token.Move (-1), Token.EndLoop]) = true :=
  ⟨by decide, bracket_balance_preserved.2 (optimisationsFor 2) _ (by decide)⟩

/-- C3 (counterexample): on the move-accumulate window from `"[->+<]"` the
idiom match reports the in-arm skip 5, but the scan does not advance by 5:
if it did, the loop's own `EndLoop` would be re-scanned and copied, giving
`Mult, Zero, EndLoop`; the actual output consumes all 6 window slots. -/
theorem scan_advance_counterexample :
    peepMatch (optimisationsFor 2) (window [Token.BeginLoop, Token.Add (-1), Token.Move 1,
        Token.Add 1, Token.Move (-1), Token.EndLoop]) = some ([Token.Mult 1 1, Token.Zero], 5)
    ∧ peepOpt (optimisationsFor 2) [Token.BeginLoop, Token.Add (-1), Token.Move 1,
        Token.Add 1, Token.Move (-1), Token.EndLoop] = [Token.Mult 1 1, Token.Zero]
    ∧ peepOpt (optimisationsFor 2) [Token.BeginLoop, Token.Add (-1), Token.Move 1,
        Token.Add 1, Token.Move (-1), Token.EndLoop]
      ≠ [Token.Mult 1 1, Token.Zero]
        ++ peepOpt (optimisationsFor 2) ([Token.BeginLoop, Token.Add (-1), Token.Move 1,
            Token.Add 1, Token.Move (-1), Token.EndLoop].drop 5) := by
  refine ⟨by decide, by decide, by decide⟩

/-- C3 (amended): on a match the scan advances by the in-arm skip `k` plus
the loop's common increment 1 — 6 slots for the move-accumulate loop
(`k = 5`), 8 for the dual-destination copy loop (`k = 7`), 3 for the
constant-offset shapes (`k = 2`) — the full matched span, not 5/7/2. -/
theorem scan_advance_amended :
    (∀ (o : Optimisations) (t : Token) (rest r : List Token) (k : Nat),
      peepMatch o (window (t :: rest)) = some (r, k) →
      peepOpt o (t :: rest) = r ++ peepOpt o ((t :: rest).drop (k + 1)))
    ∧ (∀ (o : Optimisations) (wn r : List Token) (k : Nat),
      peepMatch o wn = some (r, k) → k = 5 ∨ k = 7 ∨ k = 2) := by
  constructor
  · intro o t rest r k hm
    rw [peepOpt_cons, hm]
    rfl
  · intro o wn r k hm
    rcases peepMatch_inv o wn r k hm with
      ⟨_, _, _, hk⟩ | ⟨_, _, _, _, _, hk⟩ | ⟨_, _, _, hk⟩ |
      ⟨_, _, _, _, hk, _⟩ | ⟨_, _, hk⟩ | ⟨_, _, _, hk, _⟩ <;> omega

/-- C3 witness: the amended advance rule applied to the move-accumulate
window of `"[->+<]"`: exactly 6 slots are consumed. -/
theorem scan_advance_amended_witness :
    peepOpt (optimisationsFor 2) [Token.BeginLoop, Token.Add (-1), Token.Move 1,
        Token.Add 1, Token.Move (-1), Token.EndLoop]
      = [Token.Mult 1 1, Token.Zero]
        ++ peepOpt (optimisationsFor 2) ([Token.BeginLoop, Token.Add (-1), Token.Move 1,
            Token.Add 1, Token.Move (-1), Token.EndLoop].drop 6) :=
  scan_advance_amended.1 (optimisationsFor 2) Token.BeginLoop
    [Token.Add (-1), Token.Move 1, Token.Add 1, Token.Move (-1), Token.EndLoop]
    [Token.Mult 1 1, Token.Zero] 5 (by decide)

/-- C5: the dual-destination copy loop arm matches exactly the two
rotations of "decrement, move `m1`, add `a1`, move `m2`, add `a2`, move
`m3`" with `-m3 = m1+m2`, fires only when `copy_loop` is set and
`mult_loop` is set unless `a1 = a2 = 1`, and rewrites to
`Mult(m1,a1), Mult(m1+m2,a2), Zero`; input `"[->+>+<<]"` at every level
`≥ 2` yields the two `Mult` lines for offsets 1 and 2 followed by
`*ptr=0;`. -/
theorem copy_loop_rule :
    (∀ (o : Optimisations) (b m1 a1 m2 a2 m3 : Int),
      peepMatch o [Token.BeginLoop, Token.Add b, Token.Move m1, Token.Add a1,
          Token.Move m2, Token.Add a2, Token.Move m3, Token.EndLoop]
        = if b = -1 ∧ -m3 = m1 + m2 ∧ o.copy_loop = true
              ∧ ((a1 = 1 ∧ a2 = 1) ∨ o.mult_loop = true)
          then some ([Token.Mult m1 a1, Token.Mult (m1 + m2) a2, Token.Zero], 7)
          else none)
    ∧ (∀ (o : Optimisations) (b m1 a1 m2 a2 m3 : Int),
      peepMatch o [Token.BeginLoop, Token.Move m1, Token.Add a1, Token.Move m2, Token.Add a2,
          Token.Move m3, Token.Add b, Token.EndLoop]
        = if b = -1 ∧ -m3 = m1 + m2 ∧ o.copy_loop = true
              ∧ ((a1 = 1 ∧ a2 = 1) ∨ o.mult_loop = true)
          then some ([Token.Mult m1 a1, Token.Mult (m1 + m2) a2, Token.Zero], 7)
          else none)
    ∧ (∀ lv : Nat, 2 ≤ lv →
      pipeline lv ("[->+>+<<]") = [Token.Mult 1 1, Token.Mult 2 1, Token.Zero])
    ∧ (∀ (lv : Nat) (ic : String), 2 ≤ lv →
      emitLines ic (pipeline lv ("[->+>+<<]"))
        = ["*(ptr+1)+=*ptr*1;\n", "*(ptr+2)+=*ptr*1;\n", "*ptr=0;\n"]) := by
  refine ⟨fun o b m1 a1 m2 a2 m3 => rfl, fun o b m1 a1 m2 a2 m3 => rfl, ?_, ?_⟩
  · exact pipeline_copy_example
  · intro lv ic h2
    rw [pipeline_copy_example lv h2]
    rfl

/-- C5 witness: the concrete scenario at level 2. -/
theorem copy_loop_rule_witness :
    pipeline 2 ("[->+>+<<]") = [Token.Mult 1 1, Token.Mult 2 1, Token.Zero] :=
  copy_loop_rule.2.2.1 2 (by decide)

/-- C6: with `add_offset` enabled, a window "move `m1`, add `a`, move
`m2`" with `m1`, `m2` of opposite sign rewrites to a single
`AddOffset(a, m1)` when `m1 = -m2` and otherwise to `AddOffset(a, m1)`
followed by `Move(m1+m2)`; input `">+<"` at every level `≥ 3` emits one
`AddOffset` line and no residual `Move`. -/
theorem add_offset_rule :
    (∀ (o : Optimisations) (m1 a m2 : Int) (r3 r4 r5 r6 r7 : Token),
      peepMatch o [Token.Move m1, Token.Add a, Token.Move m2, r3, r4, r5, r6, r7]
        = if ((m1 > 0 ∧ m2 < 0) ∨ (m1 < 0 ∧ m2 > 0)) ∧ o.add_offset = true
          then some (if m1 = -m2 then [Token.AddOffset a m1]
                     else [Token.AddOffset a m1, Token.Move (m1 + m2)], 2)
          else none)
    ∧ (∀ lv : Nat, 3 ≤ lv → pipeline lv (">+<") = [Token.AddOffset 1 1])
    ∧ (∀ (lv : Nat) (ic : String), 3 ≤ lv →
      emitLines ic (pipeline lv (">+<")) = ["*(ptr+1)+=1;\n"]) := by
  refine ⟨fun o m1 a m2 r3 r4 r5 r6 r7 => rfl, ?_, ?_⟩
  · exact pipeline_addoff_example
  · intro lv ic h3
    rw [pipeline_addoff_example lv h3]
    rfl

/-- C6 witness: the concrete scenario at level 3. -/
theorem add_offset_rule_witness :
    pipeline 3 (">+<") = [Token.AddOffset 1 1] :=
  add_offset_rule.2.1 3 (by decide)

/-- C2: each recognized idiom window and its replacement are semantically
equivalent: executed from the same machine state (tape, pointer, input,
output) under the `w`-bit cell semantics, both terminate in one common
state — and `exec` is deterministic, so the resulting tape, pointer and
output byte sequence are identical.  The tape is a total function, so any
tape size large enough for the touched offsets behaves the same.  The
nonzero-`Move`-payload hypotheses hold for every window the optimizer can
see, since pruning removes every `Move(0)` before the peephole pass. -/
theorem idiom_semantic_equivalence :
    (∀ (w : Nat) (pol : EofPolicy) (ts : List Token) (s s1 s2 : Mach),
      execTerm w pol ts s s1 → execTerm w pol ts s s2 → s1 = s2)
    ∧ (∀ (w : Nat) (pol : EofPolicy) (m1 m2 a1 : Int) (s : Mach),
      wfT w s.tape → m1 ≠ 0 → m1 = -m2 →
      ∃ s', execTerm w pol [Token.BeginLoop, Token.Add (-1), Token.Move m1,
          Token.Add a1, Token.Move m2, Token.EndLoop] s s'
        ∧ execTerm w pol [Token.Mult m1 a1, Token.Zero] s s')
    ∧ (∀ (w : Nat) (pol : EofPolicy) (m1 m2 a1 : Int) (s : Mach),
      wfT w s.tape → m1 ≠ 0 → m1 = -m2 →
      ∃ s', execTerm w pol [Token.BeginLoop, Token.Move m1, Token.Add a1,
          Token.Move m2, Token.Add (-1), Token.EndLoop] s s'
        ∧ execTerm w pol [Token.Mult m1 a1, Token.Zero] s s')
    ∧ (∀ (w : Nat) (pol : EofPolicy) (m1 m2 m3 a1 a2 : Int) (s : Mach),
      wfT w s.tape → m1 ≠ 0 → m2 ≠ 0 → m3 ≠ 0 → -m3 = m1 + m2 →
      ∃ s', execTerm w pol [Token.BeginLoop, Token.Add (-1), Token.Move m1,
          Token.Add a1, Token.Move m2, Token.Add a2, Token.Move m3, Token.EndLoop] s s'
        ∧ execTerm w pol [Token.Mult m1 a1, Token.Mult (m1 + m2) a2, Token.Zero] s s')
    ∧ (∀ (w : Nat) (pol : EofPolicy) (m1 m2 m3 a1 a2 : Int) (s : Mach),
      wfT w s.tape → m1 ≠ 0 → m2 ≠ 0 → m3 ≠ 0 → -m3 = m1 + m2 →
      ∃ s', execTerm w pol [Token.BeginLoop, Token.Move m1, Token.Add a1,
          Token.Move m2, Token.Add a2, Token.Move m3, Token.Add (-1), Token.EndLoop] s s'
        ∧ execTerm w pol [Token.Mult m1 a1, Token.Mult (m1 + m2) a2, Token.Zero] s s')
    ∧ (∀ (w : Nat) (pol : EofPolicy) (m1 m2 a : Int) (s : Mach), m1 = -m2 →
      ∃ s', execTerm w pol [Token.Move m1, Token.Add a, Token.Move m2] s s'
        ∧ execTerm w pol [Token.AddOffset a m1] s s')
    ∧ (∀ (w : Nat) (pol : EofPolicy) (m1 m2 a : Int) (s : Mach), m1 ≠ -m2 →
      ∃ s', execTerm w pol [Token.Move m1, Token.Add a, Token.Move m2] s s'
        ∧ execTerm w pol [Token.AddOffset a m1, Token.Move (m1 + m2)] s s')
    ∧ (∀ (w : Nat) (pol : EofPolicy) (m1 m2 : Int) (s : Mach), m1 = -m2 →
      ∃ s', execTerm w pol [Token.Move m1, Token.Zero, Token.Move m2] s s'
        ∧ execTerm w pol [Token.ZeroOffset m1] s s')
    ∧ (∀ (w : Nat) (pol : EofPolicy) (m1 m2 : Int) (s : Mach), m1 ≠ -m2 →
      ∃ s', execTerm w pol [Token.Move m1, Token.Zero, Token.Move m2] s s'
        ∧ execTerm w pol [Token.ZeroOffset m1, Token.Move (m1 + m2)] s s') := by
  refine ⟨execTerm_det, ?_, ?_, ?_, ?_, ?_, ?_, ?_, ?_⟩
  · intro w pol m1 m2 a1 s hwf hm1 hg
    have hm2 : m2 = -m1 := by linarith
    subst hm2
    exact moveEquivA w pol m1 a1 hm1 s hwf
  · intro w pol m1 m2 a1 s hwf hm1 hg
    have hm2 : m2 = -m1 := by linarith
    subst hm2
    exact moveEquivB w pol m1 a1 hm1 s hwf
  · intro w pol m1 m2 m3 a1 a2 s hwf hm1 hm2 hm3 hg
    have hms : m1 + m2 ≠ 0 := by intro hc; apply hm3; linarith
    have hm3' : m3 = -(m1 + m2) := by linarith
    subst hm3'
    exact copyEquivA w pol m1 m2 a1 a2 hm1 hm2 hms s hwf
  · intro w pol m1 m2 m3 a1 a2 s hwf hm1 hm2 hm3 hg
    have hms : m1 + m2 ≠ 0 := by intro hc; apply hm3; linarith
    have hm3' : m3 = -(m1 + m2) := by linarith
    subst hm3'
    exact copyEquivB w pol m1 m2 a1 a2 hm1 hm2 hms s hwf
  · intro w pol m1 m2 a s hg
    have hm2 : m2 = -m1 := by linarith
    subst hm2
    exact addOffEquiv1 w pol m1 a s
  · intro w pol m1 m2 a s _
    exact addOffEquiv2 w pol m1 m2 a s
  · intro w pol m1 m2 s hg
    have hm2 : m2 = -m1 := by linarith
    subst hm2
    exact zeroOffEquiv1 w pol m1 s
  · intro w pol m1 m2 s _
    exact zeroOffEquiv2 w pol m1 m2 s

/-- C2 witness: the move-accumulate equivalence instantiated at 8-bit
cells, raw end-of-input policy, the window of `"[->++<]"` and the
all-zero machine state. -/
theorem idiom_semantic_equivalence_witness :
    ∃ s', execTerm 8 EofPolicy.raw [Token.BeginLoop, Token.Add (-1), Token.Move 1,
        Token.Add 2, Token.Move (-1), Token.EndLoop] ⟨fun _ => 0, 0, [], []⟩ s'
      ∧ execTerm 8 EofPolicy.raw [Token.Mult 1 2, Token.Zero] ⟨fun _ => 0, 0, [], []⟩ s' :=
  idiom_semantic_equivalence.2.1 8 EofPolicy.raw 1 (-1) 2 ⟨fun _ => 0, 0, [], []⟩
    (fun j => ⟨le_refl 0, by norm_num⟩) (by decide) (by decide)
